import Mathlib

/-!
Shallow embedding of `src/pip/_internal/metadata/importlib/_envs.py`
(the importlib-metadata environment of pip).

The module discovers installed distributions across an ordered list of
locations, through three strategies per location: the standard-metadata
scan (`_DistributionFinder.find`, backed by `_find_impl`), the legacy
egg scan (`find_eggs`, via `_find_eggs_in_dir` / `_find_eggs_in_zip`),
and the egg-link scan (`find_linked`).  The filesystem and the two
metadata backends are modelled as an explicit fixture (`FS`); the
mutable `_found_names` set of the finder is threaded as an explicit
`List String` of normalized names.
-/

namespace PipEnvs

/-- A filesystem path, as modelled from `pathlib.PurePosixPath`:
a flag for absoluteness and the list of components. -/
structure Path where
  absolute : Bool
  components : List String
  deriving DecidableEq, Repr

/-- `pathlib.PurePath.parent`: drop the last component (the root and the
empty relative path are their own parents). -/
def Path.parent (p : Path) : Path :=
  ⟨p.absolute, p.components.dropLast⟩

/-- Append one child name to a path, as `pathlib` does for the entries of
`Path.iterdir` and as `os.scandir` does for `entry.path`. -/
def Path.child (p : Path) (name : String) : Path :=
  ⟨p.absolute, p.components ++ [name]⟩

/-- A whitespace character, as stripped by Python's `str.strip()`. -/
def isSpaceChar (c : Char) : Bool :=
  c = ' ' || c = '\t' || c = '\n' || c = '\r' || c = '\x0b' || c = '\x0c'

/-- Python's `str.strip()`: drop leading and trailing whitespace. -/
def strip (s : String) : String :=
  String.mk (((s.data.dropWhile isSpaceChar).reverse.dropWhile
    isSpaceChar).reverse)

/-- Python's `str.endswith(suff)`. -/
def strEndsWith (s suff : String) : Bool :=
  suff.data.isSuffixOf s.data

/-- Split a character list on slashes, for path parsing. -/
def splitSlashAux : List Char → List Char → List String
  | [], acc => [String.mk acc.reverse]
  | c :: cs, acc =>
    if c = '/' then String.mk acc.reverse :: splitSlashAux cs []
    else splitSlashAux cs (c :: acc)

/-- Parse a path string, as modelled from `pathlib.PurePosixPath(s)`:
absolute iff it starts with a slash, components split on slashes. -/
def parsePath (s : String) : Path :=
  ⟨s.data.head? = some '/', (splitSlashAux s.data []).filter (fun c => c ≠ "")⟩

/-- `pathlib.PurePath.joinpath`: an absolute argument replaces the whole
path, a relative one is appended to the components. -/
def Path.joinpath (p : Path) (q : Path) : Path :=
  if q.absolute then q else ⟨p.absolute, p.components ++ q.components⟩

/-- `pathlib.PurePath.suffix`, computed on the entry name:
`i = name.rfind(".")`; the suffix is `name[i:]` when `0 < i < len(name)-1`
and empty otherwise.  In particular a bare `.egg-link` name (empty stem)
has an empty suffix. -/
def pathSuffix (name : String) : String :=
  let cs := name.data
  match (((List.range cs.length).filter (fun i => cs.getD i ' ' = '.')).getLast?) with
  | none => ""
  | some i => if 0 < i ∧ i < cs.length - 1 then String.mk (cs.drop i) else ""

/-- A separator character folded by `packaging.utils.canonicalize_name`. -/
def isSepChar (c : Char) : Bool :=
  c = '-' || c = '_' || c = '.'

/-- Character-list worker for `canonicalize_name`: replace every run of
`-`, `_`, `.` by a single `-`, and lower-case everything else.  The flag
records whether the previous character belonged to such a run. -/
def canonAux : List Char → Bool → List Char
  | [], _ => []
  | c :: cs, inRun =>
    if isSepChar c then
      if inRun then canonAux cs true else '-' :: canonAux cs true
    else
      c.toLower :: canonAux cs false

/-- `packaging.utils.canonicalize_name`:
`re.sub(r"[-_.]+", "-", name).lower()`. -/
def canonicalize_name (s : String) : String :=
  String.mk (canonAux s.data false)

/-- A raw handle returned by `importlib.metadata.distributions`: its
distribution name (`get_dist_name`) and its info location
(`get_info_location`), which may be absent. -/
structure DistHandle where
  name : String
  infoLocation : Option Path
  deriving DecidableEq, Repr

/-- The filesystem-and-backends fixture one discovery pass runs against.
Each field models one external query the source performs. -/
structure FS where
  /-- `os.path.isdir` / `pathlib.Path.is_dir`. -/
  isDir : Path → Bool
  /-- Names of the immediate children, for `Path.iterdir` and `os.scandir`. -/
  children : Path → List String
  /-- Lines of a text file, for `child.open()` in `find_linked`. -/
  fileLines : Path → List String
  /-- `importlib.metadata.distributions(path=[location])`. -/
  stdDists : Path → List DistHandle
  /-- Names of the `pkg_resources.find_distributions(entry.path)` results. -/
  eggDists : Path → List String
  /-- `zipfile.is_zipfile`. -/
  isZipfile : Path → Bool
  /-- `zipimport.zipimporter(location)`: `none` models `ZipImportError`. -/
  zipImport : Path → Option Unit
  /-- Names of the `find_eggs_in_zip(importer, location)` results. -/
  eggsInZip : Path → List String

/-- A yielded distribution record: either an importlib-backed
`Distribution(dist, info_location, installed_location)` or a legacy
`pkg_resources`-backed distribution identified by its name. -/
inductive Record where
  | standard (dist : DistHandle) (infoLocation : Option Path)
      (installedLocation : Option Path)
  | legacy (name : String)
  deriving DecidableEq, Repr

/-- Whether the record came from the legacy `pkg_resources` backend. -/
def Record.isLegacy : Record → Bool
  | .standard _ _ _ => false
  | .legacy _ => true

/-- `BaseDistribution.canonical_name` of a record. -/
def Record.canonicalName : Record → String
  | .standard d _ _ => canonicalize_name d.name
  | .legacy n => canonicalize_name n

/-- Worker of `_DistributionFinder._find_impl` over the handle list the
backend returned: skip a handle whose normalized name is already in
`_found_names`, otherwise add the name and yield
`(dist, get_info_location(dist))`. -/
def findImplAux : List DistHandle → List String →
    List (DistHandle × Option Path) × List String
  | [], found => ([], found)
  | d :: ds, found =>
    let n := canonicalize_name d.name
    if n ∈ found then
      findImplAux ds found
    else
      let r := findImplAux ds (n :: found)
      ((d, d.infoLocation) :: r.1, r.2)

/-- `_DistributionFinder._find_impl(location)`, with the `_found_names`
set threaded explicitly. -/
def find_impl (fs : FS) (location : Path) (found : List String) :
    List (DistHandle × Option Path) × List String :=
  findImplAux (fs.stdDists location) found

/-- `_DistributionFinder.find(location)`: each `(dist, info_location)`
pair becomes `Distribution(dist, info_location, info_location.parent)`
(no installed location when there is no info location). -/
def find (fs : FS) (location : Path) (found : List String) :
    List Record × List String :=
  let r := find_impl fs location found
  (r.1.map (fun p => Record.standard p.1 p.2 (p.2.map Path.parent)), r.2)

/-- First non-blank line of an egg-link file after stripping, defaulting
to the empty string: `next((line for line in lines if line), "")` over
`(line.strip() for line in f)`. -/
def firstNonBlank (lines : List String) : String :=
  (((lines.map strip).filter (fun l => l ≠ "")).head?).getD ""

/-- Worker of `_DistributionFinder.find_linked` over the children of the
location: for each child whose `suffix` is `.egg-link`, read the first
non-blank line; skip the child when it is empty, otherwise scan
`path.joinpath(target_rel)` with `_find_impl` and yield each pair as
`Distribution(dist, info_location, path)`. -/
def findLinkedAux (fs : FS) (path : Path) :
    List String → List String → List Record × List String
  | [], found => ([], found)
  | c :: cs, found =>
    if pathSuffix c ≠ ".egg-link" then
      findLinkedAux fs path cs found
    else
      let target_rel := firstNonBlank (fs.fileLines (path.child c))
      if target_rel = "" then
        findLinkedAux fs path cs found
      else
        let target_location := path.joinpath (parsePath target_rel)
        let r := find_impl fs target_location found
        let rest := findLinkedAux fs path cs r.2
        (r.1.map (fun p => Record.standard p.1 p.2 (some path)) ++ rest.1,
          rest.2)

/-- `_DistributionFinder.find_linked(location)`: nothing unless the
location is a directory, otherwise scan its children. -/
def find_linked (fs : FS) (location : Path) (found : List String) :
    List Record × List String :=
  if fs.isDir location then
    findLinkedAux fs location (fs.children location) found
  else
    ([], found)

/-- `_DistributionFinder._find_eggs_in_dir(location)`: for each child
whose name ends in `.egg`, wrap every `pkg_resources` distribution found
at the child path as a legacy record.  No deduplication. -/
def find_eggs_in_dir (fs : FS) (location : Path) : List Record :=
  (fs.children location).flatMap (fun name =>
    if strEndsWith name ".egg" then
      (fs.eggDists (location.child name)).map Record.legacy
    else
      [])

/-- `_DistributionFinder._find_eggs_in_zip(location)`: a failed
`zipimport.zipimporter` yields nothing, otherwise wrap each
`find_eggs_in_zip` result as a legacy record.  No deduplication. -/
def find_eggs_in_zip (fs : FS) (location : Path) : List Record :=
  match fs.zipImport location with
  | none => []
  | some _ => (fs.eggsInZip location).map Record.legacy

/-- `_DistributionFinder.find_eggs(location)`: the directory scan when
the location is a directory, then the zip scan when it is a zipfile. -/
def find_eggs (fs : FS) (location : Path) : List Record :=
  (if fs.isDir location then find_eggs_in_dir fs location else []) ++
    (if fs.isZipfile location then find_eggs_in_zip fs location else [])

/-- Worker of `Environment._iter_distributions`: per location, yield all
of `finder.find`, then all of `finder.find_eggs`, then all of
`finder.find_linked`, threading the finder state through. -/
def iterAux (fs : FS) : List Path → List String → List Record × List String
  | [], found => ([], found)
  | loc :: rest, found =>
    let a := find fs loc found
    let e := find_eggs fs loc
    let l := find_linked fs loc a.2
    let r := iterAux fs rest l.2
    (a.1 ++ e ++ l.1 ++ r.1, r.2)

/-- `Environment._iter_distributions` / `iter_all_distributions`: a fresh
finder (empty `_found_names`) over the environment's path list. -/
def iter_distributions (fs : FS) (paths : List Path) : List Record :=
  (iterAux fs paths []).1

/-- `Environment.get_distribution(name)`: the first record of the full
stream whose canonical name equals the canonicalized query, `none` when
there is none. -/
def get_distribution (fs : FS) (paths : List Path) (name : String) :
    Option Record :=
  (iter_distributions fs paths).find?
    (fun d => d.canonicalName = canonicalize_name name)

/-! ### Helper lemmas on the finder state -/

/-- Normalized name of a `(dist, info_location)` pair. -/
def pairName (p : DistHandle × Option Path) : String :=
  canonicalize_name p.1.name

/-- Normalized names of the non-legacy records of a stream. -/
def nlNames (rs : List Record) : List String :=
  (rs.filter (fun r => !r.isLegacy)).map Record.canonicalName

theorem findImplAux_found (ds : List DistHandle) (found : List String) :
    (findImplAux ds found).2 =
      ((findImplAux ds found).1.map pairName).reverse ++ found := by
  induction ds generalizing found with
  | nil => simp [findImplAux]
  | cons d ds ih =>
    simp only [findImplAux]
    by_cases h : canonicalize_name d.name ∈ found
    · simp only [if_pos h]
      exact ih found
    · simp only [if_neg h, List.map_cons, List.reverse_cons, List.append_assoc,
        List.singleton_append]
      exact ih (canonicalize_name d.name :: found)

theorem findImplAux_nodup_disjoint (ds : List DistHandle)
    (found : List String) :
    ((findImplAux ds found).1.map pairName).Nodup ∧
      ∀ n ∈ (findImplAux ds found).1.map pairName, n ∉ found := by
  induction ds generalizing found with
  | nil => simp [findImplAux]
  | cons d ds ih =>
    simp only [findImplAux]
    by_cases h : canonicalize_name d.name ∈ found
    · simp only [if_pos h]
      exact ih found
    · simp only [if_neg h, List.map_cons, List.nodup_cons, List.mem_cons]
      obtain ⟨ihn, ihd⟩ := ih (canonicalize_name d.name :: found)
      refine ⟨⟨?_, ihn⟩, ?_⟩
      · intro hm
        exact (ihd _ hm) (List.mem_cons_self _ _)
      · rintro n (rfl | hn)
        · exact h
        · intro hmem
          exact (ihd n hn) (List.mem_cons_of_mem _ hmem)

theorem findImplAux_mem_found (ds : List DistHandle) (found : List String)
    (d : DistHandle) (hd : d ∈ ds) :
    canonicalize_name d.name ∈ (findImplAux ds found).2 := by
  induction ds generalizing found with
  | nil => cases hd
  | cons e ds ih =>
    simp only [findImplAux]
    by_cases h : canonicalize_name e.name ∈ found
    · simp only [if_pos h]
      rcases List.mem_cons.mp hd with rfl | hd'
      · rw [findImplAux_found]
        exact List.mem_append_right _ h
      · exact ih found hd'
    · simp only [if_neg h]
      rcases List.mem_cons.mp hd with rfl | hd'
      · rw [findImplAux_found]
        exact List.mem_append_right _ (List.mem_cons_self _ _)
      · exact ih (canonicalize_name e.name :: found) hd'

theorem nlNames_standard_map (ps : List (DistHandle × Option Path))
    (f : DistHandle × Option Path → Option Path) :
    nlNames (ps.map (fun p => Record.standard p.1 p.2 (f p))) =
      ps.map pairName := by
  induction ps with
  | nil => simp [nlNames]
  | cons p ps ih =>
    simpa [nlNames, Record.isLegacy, Record.canonicalName, pairName]
      using ih

theorem find_nlNames (fs : FS) (loc : Path) (found : List String) :
    nlNames (find fs loc found).1 = (find_impl fs loc found).1.map pairName := by
  simp only [find]
  exact nlNames_standard_map _ _

theorem find_eggs_legacy (fs : FS) (loc : Path) :
    ∀ r ∈ find_eggs fs loc, r.isLegacy = true := by
  intro r hr
  simp only [find_eggs, List.mem_append] at hr
  rcases hr with hr | hr
  · split at hr
    · simp only [find_eggs_in_dir, List.mem_flatMap] at hr
      obtain ⟨name, _, hm⟩ := hr
      split at hm
      · obtain ⟨n, _, rfl⟩ := List.mem_map.mp hm
        rfl
      · cases hm
    · cases hr
  · split at hr
    · simp only [find_eggs_in_zip] at hr
      split at hr
      · cases hr
      · obtain ⟨n, _, rfl⟩ := List.mem_map.mp hr
        rfl
    · cases hr

theorem find_eggs_nlNames (fs : FS) (loc : Path) :
    nlNames (find_eggs fs loc) = [] := by
  simp only [nlNames, List.map_eq_nil_iff, List.filter_eq_nil_iff]
  intro r hr
  simp [find_eggs_legacy fs loc r hr]

theorem nlNames_append (a b : List Record) :
    nlNames (a ++ b) = nlNames a ++ nlNames b := by
  simp [nlNames]

theorem find_found (fs : FS) (loc : Path) (found : List String) :
    (find fs loc found).2 = (nlNames (find fs loc found).1).reverse ++ found := by
  rw [find_nlNames]
  simp only [find, find_impl]
  exact findImplAux_found _ _

theorem find_nodup_disjoint (fs : FS) (loc : Path) (found : List String) :
    (nlNames (find fs loc found).1).Nodup ∧
      ∀ n ∈ nlNames (find fs loc found).1, n ∉ found := by
  rw [find_nlNames]
  exact findImplAux_nodup_disjoint _ _

theorem findLinkedAux_found (fs : FS) (path : Path) (cs : List String)
    (found : List String) :
    (findLinkedAux fs path cs found).2 =
      (nlNames (findLinkedAux fs path cs found).1).reverse ++ found := by
  induction cs generalizing found with
  | nil => simp [findLinkedAux, nlNames]
  | cons c cs ih =>
    simp only [findLinkedAux]
    split
    · exact ih found
    · split
      · exact ih found
      · simp only [nlNames_append, nlNames_standard_map, List.reverse_append,
          List.append_assoc]
        rw [ih]
        simp only [find_impl]
        rw [findImplAux_found]

theorem findLinkedAux_nodup_disjoint (fs : FS) (path : Path)
    (cs : List String) (found : List String) :
    (nlNames (findLinkedAux fs path cs found).1).Nodup ∧
      ∀ n ∈ nlNames (findLinkedAux fs path cs found).1, n ∉ found := by
  induction cs generalizing found with
  | nil => simp [findLinkedAux, nlNames]
  | cons c cs ih =>
    simp only [findLinkedAux]
    split
    · exact ih found
    · split
      · exact ih found
      · simp only [nlNames_append, nlNames_standard_map]
        obtain ⟨han, had⟩ := findImplAux_nodup_disjoint
          (fs.stdDists (path.joinpath (parsePath
            (firstNonBlank (fs.fileLines (path.child c)))))) found
        obtain ⟨ihn, ihd⟩ := ih ((find_impl fs (path.joinpath (parsePath
          (firstNonBlank (fs.fileLines (path.child c))))) found).2)
        have hrest : ∀ n ∈ nlNames (findLinkedAux fs path cs
            (find_impl fs (path.joinpath (parsePath
              (firstNonBlank (fs.fileLines (path.child c))))) found).2).1,
            n ∉ (find_impl fs (path.joinpath (parsePath
              (firstNonBlank (fs.fileLines (path.child c))))) found).1.map
                pairName ∧ n ∉ found := by
          intro n hn
          have h2 := ihd n hn
          rw [show (find_impl fs (path.joinpath (parsePath
              (firstNonBlank (fs.fileLines (path.child c))))) found).2 =
            ((find_impl fs (path.joinpath (parsePath
              (firstNonBlank (fs.fileLines (path.child c))))) found).1.map
                pairName).reverse ++ found from findImplAux_found _ _,
            List.mem_append, List.mem_reverse] at h2
          exact ⟨fun hc => h2 (Or.inl hc), fun hc => h2 (Or.inr hc)⟩
        refine ⟨List.Nodup.append han ihn ?_, ?_⟩
        · intro n hna hnr
          exact (hrest n hnr).1 hna
        · intro n hn
          rcases List.mem_append.mp hn with hn | hn
          · exact had n hn
          · exact (hrest n hn).2

theorem find_linked_found (fs : FS) (loc : Path) (found : List String) :
    (find_linked fs loc found).2 =
      (nlNames (find_linked fs loc found).1).reverse ++ found := by
  simp only [find_linked]
  split
  · exact findLinkedAux_found _ _ _ _
  · simp [nlNames]

theorem find_linked_nodup_disjoint (fs : FS) (loc : Path)
    (found : List String) :
    (nlNames (find_linked fs loc found).1).Nodup ∧
      ∀ n ∈ nlNames (find_linked fs loc found).1, n ∉ found := by
  simp only [find_linked]
  split
  · exact findLinkedAux_nodup_disjoint _ _ _ _
  · simp [nlNames]

theorem iterAux_nlNames_split (fs : FS) (loc : Path) (rest : List Path)
    (found : List String) :
    nlNames (iterAux fs (loc :: rest) found).1 =
      nlNames (find fs loc found).1 ++
        nlNames (find_linked fs loc (find fs loc found).2).1 ++
        nlNames (iterAux fs rest
          (find_linked fs loc (find fs loc found).2).2).1 := by
  simp [iterAux, nlNames_append, find_eggs_nlNames]

theorem iterAux_found (fs : FS) (locs : List Path) (found : List String) :
    (iterAux fs locs found).2 =
      (nlNames (iterAux fs locs found).1).reverse ++ found := by
  induction locs generalizing found with
  | nil => simp [iterAux, nlNames]
  | cons loc rest ih =>
    rw [show (iterAux fs (loc :: rest) found).2 =
        (iterAux fs rest (find_linked fs loc (find fs loc found).2).2).2
      from rfl]
    rw [iterAux_nlNames_split, ih, find_linked_found, find_found]
    simp [List.reverse_append]

theorem iterAux_nodup_disjoint (fs : FS) (locs : List Path)
    (found : List String) :
    (nlNames (iterAux fs locs found).1).Nodup ∧
      ∀ n ∈ nlNames (iterAux fs locs found).1, n ∉ found := by
  induction locs generalizing found with
  | nil => simp [iterAux, nlNames]
  | cons loc rest ih =>
    rw [iterAux_nlNames_split]
    obtain ⟨an, ad⟩ := find_nodup_disjoint fs loc found
    obtain ⟨ln, ld⟩ := find_linked_nodup_disjoint fs loc (find fs loc found).2
    obtain ⟨rn, rd⟩ := ih (find_linked fs loc (find fs loc found).2).2
    have hl : ∀ n ∈ nlNames (find_linked fs loc (find fs loc found).2).1,
        n ∉ nlNames (find fs loc found).1 ∧ n ∉ found := by
      intro n hn
      have h2 := ld n hn
      rw [find_found, List.mem_append, List.mem_reverse] at h2
      exact ⟨fun hc => h2 (Or.inl hc), fun hc => h2 (Or.inr hc)⟩
    have hr : ∀ n ∈ nlNames (iterAux fs rest
        (find_linked fs loc (find fs loc found).2).2).1,
        n ∉ nlNames (find_linked fs loc (find fs loc found).2).1 ∧
          n ∉ nlNames (find fs loc found).1 ∧ n ∉ found := by
      intro n hn
      have h2 := rd n hn
      rw [find_linked_found] at h2
      simp only [List.mem_append, List.mem_reverse] at h2
      push_neg at h2
      obtain ⟨hl2, hA⟩ := h2
      rw [find_found] at hA
      simp only [List.mem_append, List.mem_reverse] at hA
      push_neg at hA
      exact ⟨hl2, hA.1, hA.2⟩
    constructor
    · refine List.Nodup.append (List.Nodup.append an ln ?_) rn ?_
      · intro n hna hnl
        exact (hl n hnl).1 hna
      · intro n hna hnr
        rcases List.mem_append.mp hna with h | h
        · exact (hr n hnr).2.1 h
        · exact (hr n hnr).1 h
    · intro n hn
      rcases List.mem_append.mp hn with hn | hn
      · rcases List.mem_append.mp hn with hn | hn
        · exact ad n hn
        · exact (hl n hn).2
      · exact (hr n hn).2.2

/-- All records produced by the egg-link scan carry the scanned location
itself as installed location. -/
theorem findLinkedAux_shape (fs : FS) (path : Path) (cs : List String)
    (found : List String) :
    ∀ r ∈ (findLinkedAux fs path cs found).1,
      ∃ d il, r = Record.standard d il (some path) := by
  induction cs generalizing found with
  | nil => simp [findLinkedAux]
  | cons c cs ih =>
    simp only [findLinkedAux]
    split
    · exact ih found
    · split
      · exact ih found
      · intro r hr
        rcases List.mem_append.mp hr with hr | hr
        · obtain ⟨p, _, rfl⟩ := List.mem_map.mp hr
          exact ⟨p.1, p.2, rfl⟩
        · exact ih _ r hr

/-- Records produced from `_find_impl` pairs are never legacy records. -/
theorem standard_map_filter_legacy (ps : List (DistHandle × Option Path))
    (f : DistHandle × Option Path → Option Path) :
    (ps.map (fun p => Record.standard p.1 p.2 (f p))).filter
      (fun r => r.isLegacy) = [] := by
  rw [List.filter_eq_nil_iff]
  intro r hr
  obtain ⟨p, _, rfl⟩ := List.mem_map.mp hr
  simp [Record.isLegacy]

/-- Records produced by the egg-link scan are never legacy records. -/
theorem findLinkedAux_filter_legacy (fs : FS) (path : Path)
    (cs : List String) (found : List String) :
    ((findLinkedAux fs path cs found).1).filter (fun r => r.isLegacy) = [] := by
  rw [List.filter_eq_nil_iff]
  intro r hr
  obtain ⟨d, il, rfl⟩ := findLinkedAux_shape fs path cs found r hr
  simp [Record.isLegacy]

/-! ### Fixtures used for counterexamples and witnesses -/

/-- A directory location holding both kinds of sources. -/
def locLib : Path := ⟨true, ["lib"]⟩

/-- Fixture: `locLib` holds a standard-metadata distribution `foo` and a
legacy egg also named `foo`. -/
def fsDupEgg : FS :=
  ⟨fun p => p = locLib,
   fun p => if p = locLib then ["foo.egg"] else [],
   fun _ => [],
   fun p => if p = locLib then
     [⟨"foo", some (locLib.child "foo-1.0.dist-info")⟩] else [],
   fun p => if p = locLib.child "foo.egg" then ["foo"] else [],
   fun _ => false,
   fun _ => none,
   fun _ => []⟩

/-- First location of the two-location fixture: only a legacy egg `P`. -/
def locOne : Path := ⟨true, ["l1"]⟩

/-- Second location of the two-location fixture: standard metadata `P`. -/
def locTwo : Path := ⟨true, ["l2"]⟩

/-- Fixture: `locOne` has only a legacy egg `P`, `locTwo` has only a
standard-metadata distribution `P`. -/
def fsEggThenStd : FS :=
  ⟨fun p => p = locOne,
   fun p => if p = locOne then ["p.egg"] else [],
   fun _ => [],
   fun p => if p = locTwo then
     [⟨"P", some (locTwo.child "P.dist-info")⟩] else [],
   fun p => if p = locOne.child "p.egg" then ["P"] else [],
   fun _ => false,
   fun _ => none,
   fun _ => []⟩

/-- A directory location holding one egg-link file. -/
def locUser : Path := ⟨true, ["user"]⟩

/-- The checkout directory an egg-link file points at. -/
def tgtProj : Path := ⟨true, ["user", "src", "proj"]⟩

/-- Fixture: `locUser` holds `proj.egg-link` whose first non-blank line
is the relative path `src/proj`, and the resolved target holds a
standard-metadata distribution `proj`. -/
def fsLinked : FS :=
  ⟨fun p => p = locUser,
   fun p => if p = locUser then ["proj.egg-link"] else [],
   fun p => if p = locUser.child "proj.egg-link" then
     ["", "   ", "  src/proj  ", "ignored"] else [],
   fun p => if p = tgtProj then
     [⟨"proj", some (tgtProj.child "proj.dist-info")⟩] else [],
   fun _ => [],
   fun _ => false,
   fun _ => none,
   fun _ => []⟩

/-! ### Claims -/

/-- C1, counterexample: in a fixture where one location holds a
standard-metadata `foo` and a legacy egg `foo` (two sources of the same
normalized name), the full stream of one pass contains two records named
`foo`, not exactly one. -/
theorem C1_counterexample :
    ((iter_distributions fsDupEgg [locLib]).filter
      (fun r => r.canonicalName = "foo")).length = 2 := by
  decide

/-- C1 (amended): during a single finder pass, the standard-metadata and
linked-checkout records carry pairwise distinct normalized names across
all locations; legacy-bundle (egg) records are exempt from the
deduplication, so only the non-legacy part of the stream has at most one
record per normalized name. -/
theorem C1_dedup_nonlegacy (fs : FS) (paths : List Path) :
    (nlNames (iter_distributions fs paths)).Nodup :=
  (iterAux_nodup_disjoint fs paths []).1

/-- C2, counterexample: in one location holding both a standard-metadata
package `foo` and a legacy egg `foo`, the legacy record is yielded as
well — not only the standard-metadata record. -/
theorem C2_counterexample :
    Record.legacy "foo" ∈ iter_distributions fsDupEgg [locLib] ∧
      Record.standard ⟨"foo", some (locLib.child "foo-1.0.dist-info")⟩
        (some (locLib.child "foo-1.0.dist-info")) (some locLib) ∈
          iter_distributions fsDupEgg [locLib] := by
  decide

/-- C2 (amended): within one location holding both a standard-metadata
package and a legacy egg of the same normalized name, BOTH records are
yielded: the legacy egg scan performs no deduplication — its
contribution to the per-location stream is exactly `find_eggs`,
independent of the seen-name set, while the standard record is yielded
whenever its name is unseen. -/
theorem C2_eggs_not_deduplicated (fs : FS) (loc : Path)
    (found : List String) (d : DistHandle)
    (h1 : fs.stdDists loc = [d])
    (h2 : canonicalize_name d.name ∉ found) :
    ((iterAux fs [loc] found).1.filter (fun r => r.isLegacy) =
        find_eggs fs loc) ∧
      Record.standard d d.infoLocation (d.infoLocation.map Path.parent) ∈
        (iterAux fs [loc] found).1 := by
  constructor
  · simp only [iterAux, List.filter_append, List.append_nil]
    rw [show (find fs loc found).1.filter (fun r => r.isLegacy) = []
        from standard_map_filter_legacy _ _]
    rw [List.filter_eq_self.mpr (fun r hr => by
      simp [find_eggs_legacy fs loc r hr])]
    simp only [find_linked]
    split
    · rw [findLinkedAux_filter_legacy]
      simp
    · simp
  · simp [iterAux, find, find_impl, h1, findImplAux, if_neg h2]

/-- C2, witness for the amended theorem at the duplicate fixture. -/
theorem C2_witness :
    ((iterAux fsDupEgg [locLib] []).1.filter (fun r => r.isLegacy) =
        find_eggs fsDupEgg locLib) ∧
      Record.standard ⟨"foo", some (locLib.child "foo-1.0.dist-info")⟩
        (some (locLib.child "foo-1.0.dist-info")) (some locLib) ∈
        (iterAux fsDupEgg [locLib] []).1 := by
  have h := C2_eggs_not_deduplicated fsDupEgg locLib []
    ⟨"foo", some (locLib.child "foo-1.0.dist-info")⟩ (by decide) (by decide)
  simpa using h

/-- C3, counterexample: with `locOne` holding only a legacy egg `P` and
`locTwo` holding standard metadata for `P`, the stream contains two
records named `p` — the legacy match from `locOne` is NOT recorded in the
seen-name set, so the standard-metadata match from `locTwo` is also
yielded rather than suppressed. -/
theorem C3_counterexample :
    ((iter_distributions fsEggThenStd [locOne, locTwo]).filter
        (fun r => r.canonicalName = "p")).length = 2 ∧
      Record.standard ⟨"P", some (locTwo.child "P.dist-info")⟩
        (some (locTwo.child "P.dist-info")) (some locTwo) ∈
        iter_distributions fsEggThenStd [locOne, locTwo] := by
  decide

/-- C3 (amended): for locations `[L1, L2]` where `L1` holds only a
legacy egg named `nm` and `L2` holds a standard-metadata distribution of
the same normalized name, the legacy record is yielded first and
`get_distribution` returns it; the egg match is not recorded in the
seen-name set, however, so the standard-metadata record from `L2` is
also yielded after it. -/
theorem C3_location_order (fs : FS) (L1 L2 : Path) (e nm : String)
    (d : DistHandle)
    (h1 : fs.stdDists L1 = [])
    (h2 : fs.isDir L1 = true)
    (h3 : fs.children L1 = [e])
    (h4 : strEndsWith e ".egg" = true)
    (h5 : ¬pathSuffix e = ".egg-link")
    (h6 : fs.eggDists (L1.child e) = [nm])
    (h7 : fs.isZipfile L1 = false)
    (h8 : fs.stdDists L2 = [d])
    (_h9 : canonicalize_name d.name = canonicalize_name nm)
    (h10 : fs.isDir L2 = false)
    (h11 : fs.isZipfile L2 = false) :
    iter_distributions fs [L1, L2] =
      [Record.legacy nm,
        Record.standard d d.infoLocation (d.infoLocation.map Path.parent)] ∧
      get_distribution fs [L1, L2] nm = some (Record.legacy nm) := by
  have hstream : iter_distributions fs [L1, L2] =
      [Record.legacy nm,
        Record.standard d d.infoLocation (d.infoLocation.map Path.parent)] := by
    simp [iter_distributions, iterAux, find, find_impl, find_eggs,
      find_eggs_in_dir, find_linked, findLinkedAux, findImplAux,
      h1, h2, h3, h4, h5, h6, h7, h8, h10, h11]
  refine ⟨hstream, ?_⟩
  simp [get_distribution, hstream, List.find?, Record.canonicalName]

/-- C3, witness for the amended theorem at the two-location fixture. -/
theorem C3_witness :
    iter_distributions fsEggThenStd [locOne, locTwo] =
      [Record.legacy "P",
        Record.standard ⟨"P", some (locTwo.child "P.dist-info")⟩
          (some (locTwo.child "P.dist-info")) (some locTwo)] ∧
      get_distribution fsEggThenStd [locOne, locTwo] "P" =
        some (Record.legacy "P") := by
  have h := C3_location_order fsEggThenStd locOne locTwo "p.egg" "P"
    ⟨"P", some (locTwo.child "P.dist-info")⟩ (by decide) (by decide)
    (by decide) (by decide) (by decide) (by decide) (by decide) (by decide)
    (by decide) (by decide) (by decide)
  simpa using h

/-- C4: for every location, the per-location scan yields all records of
the standard-metadata scan, then all records of the legacy egg scan,
then all records of the egg-link scan, before any record of the
remaining locations. -/
theorem C4_per_location_order (fs : FS) (loc : Path) (rest : List Path)
    (found : List String) :
    (iterAux fs (loc :: rest) found).1 =
      (find fs loc found).1 ++ find_eggs fs loc ++
        (find_linked fs loc (find fs loc found).2).1 ++
        (iterAux fs rest
          (find_linked fs loc (find fs loc found).2).2).1 := by
  simp [iterAux]

/-- C5: for a directory location whose single child is an egg-link file,
the target is the first non-blank line after whitespace-trimming; a file
with no non-blank line contributes nothing and is no error; and a
relative target is resolved against the location itself — the scanned
target's components are the location's components followed by the
target's. -/
theorem C5_egg_link_parsing (fs : FS) (loc : Path) (c : String)
    (ls found : List String)
    (h1 : fs.isDir loc = true)
    (h2 : fs.children loc = [c])
    (h3 : pathSuffix c = ".egg-link")
    (h4 : fs.fileLines (loc.child c) = ls) :
    (firstNonBlank ls = "" → find_linked fs loc found = ([], found)) ∧
      (firstNonBlank ls ≠ "" →
        (parsePath (firstNonBlank ls)).absolute = false →
        (find_linked fs loc found).1 =
          (find_impl fs
            ⟨loc.absolute,
              loc.components ++ (parsePath (firstNonBlank ls)).components⟩
            found).1.map (fun p => Record.standard p.1 p.2 (some loc))) := by
  constructor
  · intro hb
    simp [find_linked, findLinkedAux, h1, h2, h3, h4, hb]
  · intro hb habs
    have hj : loc.joinpath (parsePath (firstNonBlank ls)) =
        ⟨loc.absolute,
          loc.components ++ (parsePath (firstNonBlank ls)).components⟩ := by
      simp [Path.joinpath, habs]
    simp [find_linked, findLinkedAux, h1, h2, h3, h4, hb, hj]

/-- C5, witness: the egg-link fixture, whose link file starts with blank
lines and whose first non-blank line is the relative path `src/proj`,
resolves against `locUser` and yields exactly the distribution found at
`locUser/src/proj`. -/
theorem C5_witness :
    (find_linked fsLinked locUser []).1 =
      [Record.standard ⟨"proj", some (tgtProj.child "proj.dist-info")⟩
        (some (tgtProj.child "proj.dist-info")) (some locUser)] := by
  have h := (C5_egg_link_parsing fsLinked locUser "proj.egg-link"
    ["", "   ", "  src/proj  ", "ignored"] [] (by decide) (by decide)
    (by decide) (by decide)).2 (by decide) (by decide)
  rw [h]
  decide

/-- C6: every record of the egg-link scan carries the location holding
the egg-link file as installed location, and the scan obeys the same
deduplication contract as the standard scan: the names it yields are
pairwise distinct and disjoint from the names already seen. -/
theorem C6_linked_installed_location (fs : FS) (loc : Path)
    (found : List String) :
    (∀ r ∈ (find_linked fs loc found).1,
        ∃ d il, r = Record.standard d il (some loc)) ∧
      (nlNames (find_linked fs loc found).1).Nodup ∧
      ∀ n ∈ nlNames (find_linked fs loc found).1, n ∉ found := by
  refine ⟨?_, (find_linked_nodup_disjoint fs loc found).1,
    (find_linked_nodup_disjoint fs loc found).2⟩
  simp only [find_linked]
  split
  · exact findLinkedAux_shape fs loc (fs.children loc) found
  · simp

/-- C6, witness at the egg-link fixture. -/
theorem C6_witness :
    (∃ d il,
        Record.standard ⟨"proj", some (tgtProj.child "proj.dist-info")⟩
          (some (tgtProj.child "proj.dist-info")) (some locUser) =
          Record.standard d il (some locUser)) ∧
      (nlNames (find_linked fsLinked locUser []).1).Nodup := by
  have h := C6_linked_installed_location fsLinked locUser []
  exact ⟨h.1 _ (by decide), h.2.1⟩

/-- Decomposition of a successful `List.find?`: the result satisfies the
predicate and is the first element of the list to do so. -/
theorem find?_first_split {α : Type} (p : α → Bool) (l : List α) (a : α)
    (h : l.find? p = some a) :
    p a = true ∧ ∃ l1 l2, l = l1 ++ a :: l2 ∧ ∀ x ∈ l1, p x = false := by
  induction l with
  | nil => cases h
  | cons b l ih =>
    cases hpb : p b with
    | true =>
      rw [List.find?_cons_of_pos _ hpb] at h
      obtain rfl : b = a := Option.some.inj h
      exact ⟨hpb, [], l, rfl, by simp⟩
    | false =>
      rw [List.find?_cons_of_neg _ (by simp [hpb])] at h
      obtain ⟨hpa, l1, l2, rfl, hall⟩ := ih h
      refine ⟨hpa, b :: l1, l2, rfl, ?_⟩
      intro x hx
      rcases List.mem_cons.mp hx with rfl | hx
      · exact hpb
      · exact hall x hx

/-- C7: `get_distribution` normalizes the query and returns the first
record of the stream whose canonical name matches, and returns `none`
exactly when no record of the stream matches. -/
theorem C7_get_by_name (fs : FS) (paths : List Path) (name : String) :
    (∀ r, get_distribution fs paths name = some r →
        r.canonicalName = canonicalize_name name ∧
        ∃ l1 l2, iter_distributions fs paths = l1 ++ r :: l2 ∧
          ∀ x ∈ l1, x.canonicalName ≠ canonicalize_name name) ∧
      (get_distribution fs paths name = none ↔
        ∀ r ∈ iter_distributions fs paths,
          r.canonicalName ≠ canonicalize_name name) := by
  constructor
  · intro r hr
    obtain ⟨hp, l1, l2, heq, hall⟩ := find?_first_split _ _ _ hr
    refine ⟨of_decide_eq_true hp, l1, l2, heq, fun x hx => ?_⟩
    exact of_decide_eq_false (hall x hx)
  · rw [get_distribution, List.find?_eq_none]
    simp

/-- C7, witness at the two-location fixture: the first matching record
for query `P` is the legacy record, and everything before it in the
stream has a different canonical name. -/
theorem C7_witness :
    Record.canonicalName (Record.legacy "P") = canonicalize_name "P" ∧
      ∃ l1 l2, iter_distributions fsEggThenStd [locOne, locTwo] =
          l1 ++ Record.legacy "P" :: l2 ∧
        ∀ x ∈ l1, x.canonicalName ≠ canonicalize_name "P" :=
  (C7_get_by_name fsEggThenStd [locOne, locTwo] "P").1
    (Record.legacy "P") (by decide)

/-- C8: a location that is not a directory and whose archive open fails
(either it is not recognized as a zipfile, or the zip importer raises)
contributes no records from the legacy egg scan, with no error. -/
theorem C8_failed_archive (fs : FS) (loc : Path)
    (h1 : fs.isDir loc = false)
    (h2 : fs.isZipfile loc = false ∨ fs.zipImport loc = none) :
    find_eggs fs loc = [] := by
  rcases h2 with h2 | h2 <;>
    simp [find_eggs, find_eggs_in_zip, h1, h2]

/-- A lone archive path whose zip import fails, although the legacy
backend would report an egg inside it. -/
def locZip : Path := ⟨true, ["bad.zip"]⟩

/-- Fixture for the failed archive open: `locZip` is not a directory, is
detected as a zipfile, but `zipimport.zipimporter` fails on it. -/
def fsBadZip : FS :=
  ⟨fun _ => false,
   fun _ => [],
   fun _ => [],
   fun _ => [],
   fun _ => [],
   fun p => p = locZip,
   fun _ => none,
   fun _ => ["ghost"]⟩

/-- C8, witness: the malformed archive yields zero records. -/
theorem C8_witness : find_eggs fsBadZip locZip = [] :=
  C8_failed_archive fsBadZip locZip (by decide) (Or.inr rfl)

theorem findImplAux_all_seen :
    ∀ (ds : List DistHandle) (found : List String),
      (∀ d ∈ ds, canonicalize_name d.name ∈ found) →
      (findImplAux ds found).1 = []
  | [], _, _ => rfl
  | d :: ds, found, h => by
    simp only [findImplAux, if_pos (h d (List.mem_cons_self _ _))]
    exact findImplAux_all_seen ds found
      (fun d' hd' => h d' (List.mem_cons_of_mem _ hd'))

/-- C9: after one full standard-metadata scan of a location, scanning
the same location again with the same finder yields no records: every
name of the first pass is already in the seen-name set. -/
theorem C9_second_scan_empty (fs : FS) (loc : Path) (found : List String) :
    (find fs loc (find fs loc found).2).1 = [] := by
  have h : ∀ d ∈ fs.stdDists loc,
      canonicalize_name d.name ∈ (find fs loc found).2 := by
    intro d hd
    exact findImplAux_mem_found (fs.stdDists loc) found d hd
  show ((findImplAux (fs.stdDists loc) (find fs loc found).2).1.map
    (fun p => Record.standard p.1 p.2 (p.2.map Path.parent))) = []
  rw [findImplAux_all_seen _ _ h]
  rfl

/-- C10: a child named exactly `.egg-link` has an empty path suffix, so
the egg-link scan skips it without reading it: the scan of a child list
beginning with `.egg-link` equals the scan of the remaining children,
whatever the file's contents. -/
theorem C10_dot_egg_link_skipped (fs : FS) (path : Path)
    (cs : List String) (found : List String) :
    pathSuffix ".egg-link" = "" ∧
      findLinkedAux fs path (".egg-link" :: cs) found =
        findLinkedAux fs path cs found := by
  refine ⟨by decide, ?_⟩
  simp only [findLinkedAux]
  rw [if_pos (show ¬pathSuffix ".egg-link" = ".egg-link" by decide)]

end PipEnvs
